import Mathlib

set_option maxHeartbeats 1000000

/-!
Verification of the vendored `dssim-core` comparison engine
(`src/vendor/dssim-core/src/dssim.rs` and `tolab.rs`).

The embedding models `f32`/`f64` arithmetic exactly: pixel planes are
lists of rationals, and the score/aggregation layer (which uses the
transcendental `powf`) lives over the reals.  Machine-float constants
(`std::f64::EPSILON`) are embedded by their exact mathematical values.

The box-blur primitive (`blur.rs`), the `Downsample`/`ToRGB` trait
implementations (`image.rs`) and the sRGB linearization (`linear.rs`)
are not part of the sources being verified; where a definition needs
them they appear either as explicit function parameters or as
definitions marked `Modelled from the spec:`.
-/

/-- Comparison context, from `struct Dssim` (dssim.rs): per-scale weights and
how many of the finest scales keep their similarity map. -/
structure Dssim where
  scale_weights : List ℝ
  save_maps_scales : ℕ

/-- One channel record at one scale, from `struct DssimChan<T>` (dssim.rs).
The `img` field is the stored (possibly chroma-smoothed) plane, `mu` its
box-blur and `img_sq_blur` the box-blur of the squared plane. -/
structure DssimChan (L : Type) where
  width : ℕ
  height : ℕ
  img : List L
  mu : List L
  img_sq_blur : List L
  is_chroma : Bool

/-- Detailed comparison result, from `struct SsimMap` (dssim.rs). -/
structure SsimMap where
  map : List ℚ
  ssim : ℝ

/-- The operations the generic channel value type of `compare_scale<L>`
provides in the Rust source: `Mul`, `Sub` and `From<L> for f32`.
For grayscale scales `L = f32`; for color scales `L = LAB`. -/
structure SsimOps (L : Type) where
  mul : L → L → L
  sub : L → L → L
  toF : L → ℚ

/-- The grayscale instantiation `L = f32` of `compare_scale`'s value type;
`From<f32> for f32` is the identity. -/
def qOps : SsimOps ℚ := ⟨fun a b => a * b, fun a b => a - b, fun a => a⟩

/-- Stabilization constant `c1 = 0.01 * 0.01` from `Dssim::compare_scale`. -/
def ssim_c1 : ℚ := 0.01 * 0.01

/-- Stabilization constant `c2 = 0.03 * 0.03` from `Dssim::compare_scale`. -/
def ssim_c2 : ℚ := 0.03 * 0.03

/-- The per-pixel body of the `map` closure in `Dssim::compare_scale`
(dssim.rs lines 398-410); `mul_add(a, b, c)` is exact `a * b + c`. -/
def ssimPixel {L : Type} (ops : SsimOps L)
    (img1_img2_blur mu1 mu2 img1_sq_blur img2_sq_blur : L) : ℚ :=
  let mu1mu1 := ops.mul mu1 mu1
  let mu1mu2 := ops.mul mu1 mu2
  let mu2mu2 := ops.mul mu2 mu2
  let mu1_sq := ops.toF mu1mu1
  let mu2_sq := ops.toF mu2mu2
  let mu1_mu2 := ops.toF mu1mu2
  let sigma1_sq := ops.toF (ops.sub img1_sq_blur mu1mu1)
  let sigma2_sq := ops.toF (ops.sub img2_sq_blur mu2mu2)
  let sigma12 := ops.toF (ops.sub img1_img2_blur mu1mu2)
  (2 * mu1_mu2 + ssim_c1) * (2 * sigma12 + ssim_c2) /
    ((mu1_sq + mu2_sq + ssim_c1) * (sigma1_sq + sigma2_sq + ssim_c2))

/-- `Dssim::compare_scale` (dssim.rs): zips `img1_img2_blur` with the two
`mu` planes and the two `img_sq_blur` planes and maps the SSIM formula. -/
def compare_scale {L : Type} (ops : SsimOps L)
    (original modified : DssimChan L) (img1_img2_blur : List L) : List ℚ :=
  (img1_img2_blur.zip ((original.mu.zip modified.mu).zip
      (original.img_sq_blur.zip modified.img_sq_blur))).map
    (fun p => ssimPixel ops p.1 p.2.1.1 p.2.1.2 p.2.2.1 p.2.2.2)

/-- `Channable::img1_img2_blur` (dssim.rs): box-blur of the pointwise
product of the two stored planes.  The blur itself lives in `blur.rs`
(not among the verified sources) and is therefore a parameter. -/
def img1_img2_blurFn {L : Type} (ops : SsimOps L) (blur : List L → List L)
    (original modified : DssimChan L) : List L :=
  blur (List.zipWith ops.mul original.img modified.img)

/-- `DssimChan::preprocess` (dssim.rs): chroma planes get an extra blur in
place, then `mu` is the blur of the plane and `img_sq_blur` the blur of the
squared plane. -/
def preprocessChan {L : Type} (ops : SsimOps L) (blur : List L → List L)
    (width height : ℕ) (bitmap : List L) (is_chroma : Bool) : DssimChan L :=
  let img := if is_chroma then blur bitmap else bitmap
  { width := width, height := height, img := img, mu := blur img,
    img_sq_blur := blur (img.map (fun i => ops.mul i i)), is_chroma := is_chroma }

/-- Exact value of `std::f64::EPSILON` (the machine epsilon of binary64,
`2^-52`), used by `to_dssim`. -/
noncomputable def f64_EPSILON : ℝ := 1 / 2 ^ 52

/-- Smallest positive representable binary64 value (the subnormal
`2^-1074`) — the constant the specification's words describe. -/
noncomputable def f64_MIN_POSITIVE : ℝ := 1 / 2 ^ 1074

/-- `to_dssim` (dssim.rs line 417-419): `1.0 / ssim.max(std::f64::EPSILON) - 1.0`. -/
noncomputable def to_dssim (ssim : ℝ) : ℝ := 1 / max ssim f64_EPSILON - 1

/-- The dissimilarity conversion as the specification words it: the guard
constant is claimed to be the smallest positive representable
floating-point value. -/
noncomputable def to_dssim_claim (ssim : ℝ) : ℝ := 1 / max ssim f64_MIN_POSITIVE - 1

/-- The mean of the similarity plane, floored at 0 and raised to the power
`0.5^n` — the `avg` local of `Dssim::compare` (dssim.rs line 324),
with `powf` modelled by the real power function. -/
noncomputable def scaleAvg (n : ℕ) (plane : List ℚ) : ℝ :=
  (max (((plane.foldl (fun s i => s + i) 0 : ℚ) : ℝ) / (plane.length : ℝ)) 0) ^
    (((0.5 : ℝ) ^ n : ℝ))

/-- The `score` local of `Dssim::compare` (dssim.rs line 325):
one minus the mean absolute deviation of the plane from `scaleAvg`. -/
noncomputable def scaleScore (n : ℕ) (plane : List ℚ) : ℝ :=
  1 - plane.foldl (fun (s : ℝ) (i : ℚ) => s + |scaleAvg n plane - (i : ℝ)|) 0 /
    (plane.length : ℝ)

/-- The similarity plane one compared scale produces: `compare_scale`
applied to the cross-product blur, as in the per-scale closure of
`Dssim::compare`. -/
def scalePlane {L : Type} (ops : SsimOps L) (blur : List L → List L)
    (original modified : DssimChan L) : List ℚ :=
  compare_scale ops original modified (img1_img2_blurFn ops blur original modified)

/-- The `res` vector of `Dssim::compare` (dssim.rs lines 295-336): the
context's weights zipped against the two images' scale lists, enumerated,
each scale yielding `(score, weight, optional retained map)`; the map is
retained when `save_maps_scales > n`. -/
noncomputable def resList {L : Type} (ops : SsimOps L) (blur : List L → List L)
    (ctx : Dssim) (original modified : List (DssimChan L)) :
    List (ℝ × ℝ × Option SsimMap) :=
  (ctx.scale_weights.zip (modified.zip original)).enum.map (fun p =>
    let plane := scalePlane ops blur p.2.2.2 p.2.2.1
    let score := scaleScore p.1 plane
    (score, p.2.1,
      if p.1 < ctx.save_maps_scales then some ⟨plane, score⟩ else none))

/-- `Dssim::compare` (dssim.rs lines 293-350): fold the per-scale results
into `ssim_sum` and `weight_sum`, collect the retained maps in order, and
return `to_dssim(ssim_sum / weight_sum)` with the maps. -/
noncomputable def Dssim.compare {L : Type} (ctx : Dssim) (ops : SsimOps L)
    (blur : List L → List L) (original modified : List (DssimChan L)) :
    ℝ × List SsimMap :=
  let res := resList ops blur ctx original modified
  let ssim_sum := res.foldl (fun s r => s + r.1 * r.2.1) 0
  let weight_sum := res.foldl (fun s r => s + r.2.1) 0
  (to_dssim (ssim_sum / weight_sum), res.filterMap (fun r => r.2.2))

/-- The per-pixel SSIM formula exactly as the specification states it,
with `c1 = 0.0001`, `c2 = 0.0009` and the sigma terms spelled out. -/
def ssimPixelSpec (mu1 mu2 img1_sq_blur img2_sq_blur img1_img2_blur : ℚ) : ℚ :=
  let sigma1_sq := img1_sq_blur - mu1 ^ 2
  let sigma2_sq := img2_sq_blur - mu2 ^ 2
  let sigma12 := img1_img2_blur - mu1 * mu2
  (2 * mu1 * mu2 + 0.0001) * (2 * sigma12 + 0.0009) /
    ((mu1 ^ 2 + mu2 ^ 2 + 0.0001) * (sigma1_sq + sigma2_sq + 0.0009))

/-- The scale score as the specification words it: `avg` is the mean of
the plane floored at 0 and raised to the power `0.5^n`, the score is one
minus the mean of `|avg - ssim(p)|` over all pixels. -/
noncomputable def scaleScoreSpec (n : ℕ) (plane : List ℚ) : ℝ :=
  let avg : ℝ := (max (((plane.sum : ℚ) : ℝ) / (plane.length : ℝ)) 0) ^
    (((0.5 : ℝ) ^ n : ℝ))
  1 - ((plane.map (fun (p : ℚ) => |avg - (p : ℝ)|)).sum) / (plane.length : ℝ)

/-- `Dssim::make_scales_recursive` (dssim.rs lines 247-285), sequentialized:
the fork-join runs (a) convert-and-preprocess the current level and (b)
downsample-and-recurse while `scales_left > 0`; the recursion pushes its
(coarser) levels before the current one.  The per-level conversion `conv`
(`to_lab` plus preprocessing) and the `Downsample` implementation `down`
are trait methods of the input bitmap type, passed here as functions. -/
def make_scales_recursive {I S : Type} (conv : I → S) (down : I → Option I) :
    ℕ → I → List S
  | 0, image => [conv image]
  | n + 1, image =>
    (match down image with
     | none => []
     | some d => make_scales_recursive conv down n d) ++ [conv image]

/-- `Dssim::create_image` (dssim.rs lines 234-245): build
`scale_weights.len()` recursive scales, reverse (depth-first made the
smallest scales first), and unconditionally return `Some`. -/
def Dssim.create_image {I S : Type} (ctx : Dssim) (conv : I → S)
    (down : I → Option I) (src_img : I) : Option (List S) :=
  some ((make_scales_recursive conv down ctx.scale_weights.length src_img).reverse)

/-- The image can be downsampled `n` times in a row: the success chain of
the `down` calls that `make_scales_recursive` performs. -/
def downChain {I : Type} (down : I → Option I) : ℕ → I → Prop
  | 0, _ => True
  | n + 1, image =>
    match down image with
    | none => False
    | some d => downChain down n d

/-- A raw 8-bit RGBA pixel (`RGBA<u8>` of the `rgb` crate). -/
structure RGBA8 where
  r : ℕ
  g : ℕ
  b : ℕ
  a : ℕ

/-- A raw 8-bit RGB pixel (`RGB<u8>` of the `rgb` crate). -/
structure RGB8 where
  r : ℕ
  g : ℕ
  b : ℕ

/-- Premultiplied linear RGBA pixel (`RGBAPLU`, image.rs). -/
structure RGBAPLU where
  r : ℝ
  g : ℝ
  b : ℝ
  a : ℝ

/-- Linear RGB pixel (`RGBLU`, image.rs). -/
structure RGBLU where
  r : ℝ
  g : ℝ
  b : ℝ

/-- A pixel buffer together with its dimensions (`ImgVec`). -/
structure PluImage (P : Type) where
  buf : List P
  width : ℕ
  height : ℕ

/-- Modelled from the spec: `to_rgbaplu` (linear.rs, not among the verified
sources) converts sRGB `u8` RGBA to premultiplied linear floats scaled to
0..1.  No claim inspects the converted values, so the sRGB transfer curve
is modelled as plain scaling; only its shape (a per-pixel map) matters. -/
noncomputable def to_rgbaplu (bitmap : List RGBA8) : List RGBAPLU :=
  bitmap.map (fun p =>
    ⟨(p.r : ℝ) / 255 * ((p.a : ℝ) / 255), (p.g : ℝ) / 255 * ((p.a : ℝ) / 255),
     (p.b : ℝ) / 255 * ((p.a : ℝ) / 255), (p.a : ℝ) / 255⟩)

/-- Modelled from the spec: `to_rgblu` (linear.rs, not among the verified
sources) converts sRGB `u8` RGB to linear floats scaled to 0..1; modelled
as plain per-pixel scaling, as above. -/
noncomputable def to_rgblu (bitmap : List RGB8) : List RGBLU :=
  bitmap.map (fun p => ⟨(p.r : ℝ) / 255, (p.g : ℝ) / 255, (p.b : ℝ) / 255⟩)

/-- `Dssim::create_image_rgba` (dssim.rs lines 205-211): reject when
`width * height < bitmap.len()`, otherwise convert and call the generic
`create_image` (whose per-level conversion and downsampling are the trait
methods, passed as functions). -/
noncomputable def Dssim.create_image_rgba {S : Type} (ctx : Dssim)
    (conv : PluImage RGBAPLU → S)
    (down : PluImage RGBAPLU → Option (PluImage RGBAPLU))
    (bitmap : List RGBA8) (width height : ℕ) : Option (List S) :=
  if width * height < bitmap.length then none
  else ctx.create_image conv down ⟨to_rgbaplu bitmap, width, height⟩

/-- `Dssim::create_image_rgb` (dssim.rs lines 216-222): same guard for
packed RGB input. -/
noncomputable def Dssim.create_image_rgb {S : Type} (ctx : Dssim)
    (conv : PluImage RGBLU → S)
    (down : PluImage RGBLU → Option (PluImage RGBLU))
    (bitmap : List RGB8) (width height : ℕ) : Option (List S) :=
  if width * height < bitmap.length then none
  else ctx.create_image conv down ⟨to_rgblu bitmap, width, height⟩

/-- `D65x` (tolab.rs). -/
noncomputable def D65x : ℝ := 0.9505

/-- `D65z` (tolab.rs). -/
noncomputable def D65z : ℝ := 1.089

/-- `fma_matrix` (tolab.rs): `b.mul_add(bx, g.mul_add(gx, r * rx))`,
exact in real arithmetic. -/
noncomputable def fma_matrix (r rx g gx b bx : ℝ) : ℝ := b * bx + (g * gx + r * rx)

/-- The L*a*b* nonlinearity breakpoint `epsilon = 216/24389` (tolab.rs). -/
noncomputable def lab_epsilon : ℝ := 216 / 24389

/-- The linear-segment slope `k = 24389/(27*116)` (tolab.rs). -/
noncomputable def lab_k : ℝ := 24389 / (27 * 116)

/-- Real cube root on the range the conversion applies it to (arguments
above the positive breakpoint), modelling `f32::cbrt`. -/
noncomputable def cbrtR (x : ℝ) : ℝ := x ^ ((1 : ℝ) / 3)

/-- `impl ToLAB for RGBLU` (tolab.rs lines 25-45): matrix to XYZ, the
cube-root/linear-segment nonlinearity, then the scaled/biased L, a, b
triple. -/
noncomputable def RGBLU.to_lab (p : RGBLU) : ℝ × ℝ × ℝ :=
  let fx := fma_matrix p.r 0.4124 p.g 0.3576 p.b 0.1805 / D65x
  let fy := fma_matrix p.r 0.2126 p.g 0.7152 p.b 0.0722
  let fz := fma_matrix p.r 0.0193 p.g 0.1192 p.b 0.9505 / D65z
  let X := if fx > lab_epsilon then cbrtR fx - 16 / 116 else lab_k * fx
  let Y := if fy > lab_epsilon then cbrtR fy - 16 / 116 else lab_k * fy
  let Z := if fz > lab_epsilon then cbrtR fz - 16 / 116 else lab_k * fz
  (Y * 1.05, (500 / 220 : ℝ) * (X - Y) + 86.2 / 220,
    (200 / 220 : ℝ) * (Y - Z) + 107.9 / 220)

/-- Modelled from the spec: `RGBAPLU::to_rgb` lives in image.rs, which is
not among the verified sources; per the spec the default conversions
ignore the coordinate-derived perturbation term, so the model drops the
term (and the alpha-blending detail no claim depends on). -/
def RGBAPLU.to_rgb (p : RGBAPLU) (_n : ℕ) : RGBLU := ⟨p.r, p.g, p.b⟩

/-- `rgb_to_lab` (tolab.rs lines 95-136) with the coordinate-derived term
generalized to a parameter `pert`: each row `y`, each pixel `x` is mapped
through the callback with the term `pert x y`.  The three output planes
are modelled as one plane of triples. -/
def rgb_to_lab_with {A B : Type} (pert : ℕ → ℕ → ℕ) (cb : A → ℕ → B)
    (rows : List (List A)) : List (List B) :=
  rows.enum.map (fun yr => yr.2.enum.map (fun xp => cb xp.2 (pert xp.1 yr.1)))

/-- `rgb_to_lab` (tolab.rs) as written in the source: the perturbation
term is `(x + 11) ^ (y + 11)` (bitwise XOR). -/
def rgb_to_lab {A B : Type} (cb : A → ℕ → B) (rows : List (List A)) :
    List (List B) :=
  rgb_to_lab_with (fun x y => (x + 11) ^^^ (y + 11)) cb rows

/-- The callback of `impl ToLABBitmap for ImgRef<RGBAPLU>` (tolab.rs lines
138-145): `|px, n| px.to_rgb(n).to_lab()`. -/
noncomputable def rgbaplu_cb (px : RGBAPLU) (n : ℕ) : ℝ × ℝ × ℝ :=
  (px.to_rgb n).to_lab

/-- The callback of `impl ToLABBitmap for ImgRef<RGBLU>` (tolab.rs lines
147-154): `|px, _n| px.to_lab()`. -/
noncomputable def rgblu_cb (px : RGBLU) (_n : ℕ) : ℝ × ℝ × ℝ := px.to_lab

/-- The grayscale pixel nonlinearity of `impl ToLABBitmap for GBitmap`
(tolab.rs lines 68-93): the luma curve scaled by the canonical 1.16. -/
noncomputable def gray_to_lab_px (fy : ℝ) : ℝ :=
  (if fy > lab_epsilon then cbrtR fy - 16 / 116 else ((24389 / 27 : ℝ) / 116) * fy) * 1.16

/-- `impl ToLABBitmap for GBitmap` (tolab.rs): a purely pixelwise map; the
loop never forms a coordinate-derived term. -/
noncomputable def gray_to_lab (rows : List (List ℝ)) : List (List ℝ) :=
  rows.map (fun row => row.map gray_to_lab_px)

/-- A channel whose statistics were produced by `DssimChan::preprocess`
with the given blur: `mu` is the blur of the stored plane and
`img_sq_blur` the blur of the squared stored plane. -/
def ChanFromBlur {L : Type} (ops : SsimOps L) (blur : List L → List L)
    (c : DssimChan L) : Prop :=
  c.mu = blur c.img ∧ c.img_sq_blur = blur (c.img.map (fun i => ops.mul i i))

/- ---------------------------------------------------------------- -/
/- Helper lemmas (shared; none of these is a claim theorem).        -/
/- ---------------------------------------------------------------- -/

theorem foldl_add_map {A M : Type} [AddCommMonoid M] (f : A → M) :
    ∀ (l : List A) (a : M), l.foldl (fun s i => s + f i) a = a + (l.map f).sum := by
  intro l
  induction l with
  | nil => intro a; simp
  | cons x xs ih =>
    intro a
    simp [ih (a + f x), add_assoc]

theorem preprocessChan_from_blur {L : Type} (ops : SsimOps L)
    (blur : List L → List L) (w h : ℕ) (bitmap : List L) (c : Bool) :
    ChanFromBlur ops blur (preprocessChan ops blur w h bitmap c) := by
  constructor <;> rfl

/- ---------------------------------------------------------------- -/
/- Claim theorems.                                                  -/
/- ---------------------------------------------------------------- -/

/-- C3: every value written into a similarity plane by `compare_scale`
equals `(2 mu1 mu2 + c1)(2 sigma12 + c2) / ((mu1^2 + mu2^2 + c1)(sigma1^2 +
sigma2^2 + c2))` with `c1 = 0.0001`, `c2 = 0.0009` and the sigma terms
derived from the blurred squares/product (grayscale channel value type,
where `From<L> for f32` is the identity). -/
theorem compare_scale_ssim_formula :
    (∀ i12 mu1 mu2 s1 s2 : ℚ,
      ssimPixel qOps i12 mu1 mu2 s1 s2 = ssimPixelSpec mu1 mu2 s1 s2 i12) ∧
    ssim_c1 = 0.0001 ∧ ssim_c2 = 0.0009 ∧
    ∀ (o m : DssimChan ℚ) (i12 : List ℚ),
      compare_scale qOps o m i12 =
        (i12.zip ((o.mu.zip m.mu).zip (o.img_sq_blur.zip m.img_sq_blur))).map
          (fun p => ssimPixelSpec p.2.1.1 p.2.1.2 p.2.2.1 p.2.2.2 p.1) := by
  have hpix : ∀ i12 mu1 mu2 s1 s2 : ℚ,
      ssimPixel qOps i12 mu1 mu2 s1 s2 = ssimPixelSpec mu1 mu2 s1 s2 i12 := by
    intro i12 mu1 mu2 s1 s2
    show (2 * (mu1 * mu2) + ssim_c1) * (2 * (i12 - mu1 * mu2) + ssim_c2) /
        ((mu1 * mu1 + mu2 * mu2 + ssim_c1) *
          ((s1 - mu1 * mu1) + (s2 - mu2 * mu2) + ssim_c2)) = _
    unfold ssimPixelSpec ssim_c1 ssim_c2
    norm_num
    ring_nf
  refine ⟨hpix, by norm_num [ssim_c1], by norm_num [ssim_c2], ?_⟩
  intro o m i12
  unfold compare_scale
  refine List.map_congr_left ?_
  intro p _
  exact hpix p.1 p.2.1.1 p.2.1.2 p.2.2.1 p.2.2.2

/-- C7: the default color conversions do not depend on the
coordinate-derived perturbation term `(x+11) XOR (y+11)`: running the
conversion loop with any other perturbation function yields the same
planes for the RGBA-premultiplied and RGB callbacks (and the grayscale
path is a plain pixelwise map that never forms the term). -/
theorem default_conversions_ignore_perturbation :
    ∀ (pert : ℕ → ℕ → ℕ) (rowsA : List (List RGBAPLU)) (rowsR : List (List RGBLU))
      (rowsG : List (List ℝ)),
      rgb_to_lab_with pert rgbaplu_cb rowsA = rgb_to_lab rgbaplu_cb rowsA ∧
      rgb_to_lab_with pert rgblu_cb rowsR = rgb_to_lab rgblu_cb rowsR ∧
      gray_to_lab rowsG = rowsG.map (fun row => row.map gray_to_lab_px) := by
  intro pert rowsA rowsR rowsG
  refine ⟨?_, ?_, rfl⟩ <;>
    simp [rgb_to_lab, rgb_to_lab_with, rgbaplu_cb, rgblu_cb, RGBAPLU.to_rgb]

/-- C9: the generic `create_image` entry point never rejects its input:
for every source bitmap, conversion and downsampler it returns `Some`
(with at least one pyramid level); no buffer-length check exists on this
path. -/
theorem create_image_generic_never_rejects {I S : Type} (ctx : Dssim)
    (conv : I → S) (down : I → Option I) (src_img : I) :
    (ctx.create_image conv down src_img).isSome = true ∧
    ∀ scales, ctx.create_image conv down src_img = some scales →
      1 ≤ scales.length := by
  have hlen : ∀ (n : ℕ) (i : I), 1 ≤ (make_scales_recursive conv down n i).length := by
    intro n i
    cases n with
    | zero => simp [make_scales_recursive]
    | succ k => simp [make_scales_recursive]
  refine ⟨rfl, ?_⟩
  intro scales hs
  have : scales = (make_scales_recursive conv down ctx.scale_weights.length src_img).reverse := by
    have := hs.symm
    simpa [Dssim.create_image] using this
  rw [this, List.length_reverse]
  exact hlen _ _

/-- C5 counterexample: a buffer whose length differs from `width*height`
(here an empty buffer for a 1x1 image) is NOT rejected by
`create_image_rgba`: the guard only fires when `width*height <
bitmap.len()`, so the claim as stated is false. -/
theorem create_image_rgba_short_buffer_not_rejected :
    ((Dssim.mk [] 0).create_image_rgba (fun _ => ()) (fun _ => none) [] 1 1).isSome
      = true ∧ ([] : List RGBA8).length ≠ 1 * 1 := by
  constructor
  · simp [Dssim.create_image_rgba, Dssim.create_image]
  · decide

/-- C5 (amended): `create_image_rgba` / `create_image_rgb` reject exactly
when `width*height < buffer length` (oversupplied buffer), before any
color conversion; a buffer shorter than `width*height` passes the check. -/
theorem create_image_wrappers_reject_iff_oversized {S T : Type} (ctx : Dssim)
    (conv : PluImage RGBAPLU → S) (down : PluImage RGBAPLU → Option (PluImage RGBAPLU))
    (conv' : PluImage RGBLU → T) (down' : PluImage RGBLU → Option (PluImage RGBLU))
    (bitmap : List RGBA8) (bitmap' : List RGB8) (w h w' h' : ℕ) :
    (ctx.create_image_rgba conv down bitmap w h = none ↔ w * h < bitmap.length) ∧
    (ctx.create_image_rgb conv' down' bitmap' w' h' = none ↔ w' * h' < bitmap'.length) := by
  constructor
  · rw [Dssim.create_image_rgba]
    split <;> simp_all [Dssim.create_image]
  · rw [Dssim.create_image_rgb]
    split <;> simp_all [Dssim.create_image]

/-- C1 counterexample: at a weighted SSIM of 0 the code yields
`2^52 - 1` (the guard constant is `f64::EPSILON`, the machine epsilon
`2^-52`), not the value the claim's words give (guard = smallest positive
representable value `2^-1074`); the two constants differ. -/
theorem to_dssim_eps_counterexample :
    to_dssim 0 = 2 ^ 52 - 1 ∧ to_dssim 0 ≠ to_dssim_claim 0 ∧
    f64_EPSILON ≠ f64_MIN_POSITIVE := by
  have h0 : to_dssim 0 = 2 ^ 52 - 1 := by
    rw [to_dssim, f64_EPSILON, max_eq_right (by positivity)]
    norm_num
  have h1 : to_dssim_claim 0 = 2 ^ 1074 - 1 := by
    rw [to_dssim_claim, f64_MIN_POSITIVE, max_eq_right (by positivity)]
    norm_num
  refine ⟨h0, ?_, ?_⟩
  · rw [h0, h1]
    intro h
    have := sub_left_injective h
    norm_num at this
  · rw [f64_EPSILON, f64_MIN_POSITIVE]
    intro h
    norm_num at h

/-- C1 (amended): the aggregator returns
`to_dssim(sum(score*weight) / sum(weight))` over the per-scale results,
and `to_dssim s = 1 / max(s, eps) - 1` where `eps` is the machine epsilon
`2^-52` (`f64::EPSILON`), not the smallest positive representable value;
for a weighted SSIM of zero or negative the result is exactly `2^52 - 1`,
which is below the largest finite binary64 value (no infinity or NaN). -/
theorem to_dssim_machine_epsilon_amended :
    (∀ s : ℝ, to_dssim s = 1 / max s (1 / 2 ^ 52) - 1) ∧
    (∀ s : ℝ, s ≤ 0 → to_dssim s = 2 ^ 52 - 1 ∧ to_dssim s < 2 ^ 1024) ∧
    (∀ (L : Type) (ops : SsimOps L) (blur : List L → List L) (ctx : Dssim)
        (original modified : List (DssimChan L)),
      (ctx.compare ops blur original modified).1 =
        to_dssim
          (((resList ops blur ctx original modified).map (fun r => r.1 * r.2.1)).sum /
            ((resList ops blur ctx original modified).map (fun r => r.2.1)).sum)) := by
  refine ⟨fun s => rfl, ?_, ?_⟩
  · intro s hs
    have hmax : max s f64_EPSILON = f64_EPSILON := by
      apply max_eq_right
      calc s ≤ 0 := hs
        _ ≤ f64_EPSILON := by rw [f64_EPSILON]; positivity
    constructor
    · rw [to_dssim, hmax, f64_EPSILON]
      norm_num
    · rw [to_dssim, hmax, f64_EPSILON]
      norm_num
  · intro L ops blur ctx original modified
    show to_dssim _ = to_dssim _
    rw [foldl_add_map (fun r : ℝ × ℝ × Option SsimMap => r.1 * r.2.1),
      foldl_add_map (fun r : ℝ × ℝ × Option SsimMap => r.2.1), zero_add, zero_add]

/-- C1 witness: the amended theorem applied at the concrete weighted SSIM
value 0. -/
theorem to_dssim_machine_epsilon_amended_witness : to_dssim 0 = 2 ^ 52 - 1 :=
  (to_dssim_machine_epsilon_amended.2.1 0 le_rfl).1

theorem foldl_add_sum {M : Type} [AddCommMonoid M] :
    ∀ (l : List M) (a : M), l.foldl (fun s i => s + i) a = a + l.sum := by
  intro l
  induction l with
  | nil => intro a; simp
  | cons x xs ih => intro a; simp [ih (a + x), add_assoc]

theorem scaleAvg_eq (n : ℕ) (plane : List ℚ) :
    scaleAvg n plane =
      (max (((plane.sum : ℚ) : ℝ) / (plane.length : ℝ)) 0) ^ (((0.5 : ℝ) ^ n : ℝ)) := by
  unfold scaleAvg
  rw [foldl_add_sum, zero_add]

theorem map_fst_zip_take {A B : Type} :
    ∀ (l : List A) (m : List B), (l.zip m).map Prod.fst = l.take m.length := by
  intro l
  induction l with
  | nil => intro m; simp
  | cons x xs ih =>
    intro m
    cases m with
    | nil => simp
    | cons y ys => simp [ih ys]

theorem enumFrom_map_fst_snd {A B : Type} :
    ∀ (l : List (A × B)) (i : ℕ),
      (List.enumFrom i l).map (fun p => p.2.1) = l.map Prod.fst := by
  intro l
  induction l with
  | nil => intro i; simp
  | cons x xs ih => intro i; simp [List.enumFrom, ih]

theorem enum_eq_enumFrom_zero {A : Type} (l : List A) : l.enum = List.enumFrom 0 l := rfl

theorem resList_weights {L : Type} (ops : SsimOps L) (blur : List L → List L)
    (ctx : Dssim) (original modified : List (DssimChan L)) :
    (resList ops blur ctx original modified).map (fun r => r.2.1) =
      ctx.scale_weights.take (min modified.length original.length) := by
  have h1 : (resList ops blur ctx original modified).map (fun r => r.2.1) =
      ((ctx.scale_weights.zip (modified.zip original)).enum).map (fun p => p.2.1) := by
    unfold resList
    rw [List.map_map]
    rfl
  rw [h1, enum_eq_enumFrom_zero, enumFrom_map_fst_snd, map_fst_zip_take,
    List.length_zip]

/-- C4: every scale's scalar score is `1 - mean(|avg - ssim(p)|)` where
`avg` is the plane's mean floored at 0 raised to the power `0.5^n`; at the
finest scale (`n = 0`) the exponent is 1 and `avg` is the undamped floored
mean. -/
theorem scale_score_spec_and_undamped_finest (n : ℕ) (plane : List ℚ) :
    scaleScore n plane = scaleScoreSpec n plane ∧
    scaleScore 0 plane =
      1 - ((plane.map (fun (p : ℚ) =>
          |max (((plane.sum : ℚ) : ℝ) / (plane.length : ℝ)) 0 - (p : ℝ)|)).sum) /
        (plane.length : ℝ) := by
  constructor
  · simp only [scaleScore, scaleScoreSpec]
    rw [foldl_add_map (fun i : ℚ => |scaleAvg n plane - (i : ℝ)|), zero_add,
      scaleAvg_eq]
  · simp only [scaleScore]
    rw [foldl_add_map (fun i : ℚ => |scaleAvg 0 plane - (i : ℝ)|), zero_add,
      scaleAvg_eq, pow_zero, Real.rpow_one]

/-- C2: the aggregate normalizes by the sum of only the consumed weights:
the weights appearing in the per-scale results are exactly the first
`min(scales)` configured weights in index order, and the returned value is
`to_dssim` of the weighted score sum divided by the sum of those consumed
weights (not the full configured weight sum). -/
theorem compare_normalizes_by_consumed_weights {L : Type} (ops : SsimOps L)
    (blur : List L → List L) (ctx : Dssim)
    (original modified : List (DssimChan L)) :
    (resList ops blur ctx original modified).map (fun r => r.2.1) =
      ctx.scale_weights.take (min modified.length original.length) ∧
    (ctx.compare ops blur original modified).1 =
      to_dssim
        (((resList ops blur ctx original modified).map (fun r => r.1 * r.2.1)).sum /
          (ctx.scale_weights.take (min modified.length original.length)).sum) := by
  have hw := resList_weights ops blur ctx original modified
  refine ⟨hw, ?_⟩
  have hfst : (ctx.compare ops blur original modified).1 =
      to_dssim
        (((resList ops blur ctx original modified).map (fun r => r.1 * r.2.1)).sum /
          ((resList ops blur ctx original modified).map (fun r => r.2.1)).sum) := by
    show to_dssim _ = to_dssim _
    rw [foldl_add_map (fun r : ℝ × ℝ × Option SsimMap => r.1 * r.2.1),
      foldl_add_map (fun r : ℝ × ℝ × Option SsimMap => r.2.1), zero_add, zero_add]
  rw [hfst, hw]

theorem filterMap_enumFrom_lt {A B : Type} (f : ℕ → A → B) (k : ℕ) :
    ∀ (l : List A) (i : ℕ),
      (List.enumFrom i l).filterMap
          (fun p => if p.1 < k then some (f p.1 p.2) else none) =
        ((List.enumFrom i l).map (fun p => f p.1 p.2)).take (k - i) := by
  intro l
  induction l with
  | nil => intro i; simp
  | cons x xs ih =>
    intro i
    by_cases h : i < k
    · have hk : k - i = (k - (i + 1)) + 1 := by omega
      simp [List.enumFrom, List.filterMap_cons, h, ih (i + 1), hk]
    · have hk0 : k - i = 0 := by omega
      have hk1 : k - (i + 1) = 0 := by omega
      simp [List.enumFrom, List.filterMap_cons, h, ih (i + 1), hk0, hk1]

/-- C6: the returned map list is exactly the similarity maps of the
finest `save_maps_scales` compared scales (fewer if fewer scales exist),
in ascending scale-index order, each paired with that scale's scalar
score. -/
theorem compare_retains_finest_maps_with_scores {L : Type} (ops : SsimOps L)
    (blur : List L → List L) (ctx : Dssim)
    (original modified : List (DssimChan L)) :
    (ctx.compare ops blur original modified).2 =
      ((ctx.scale_weights.zip (modified.zip original)).enum.map (fun p =>
          SsimMap.mk (scalePlane ops blur p.2.2.2 p.2.2.1)
            (scaleScore p.1 (scalePlane ops blur p.2.2.2 p.2.2.1)))).take
        ctx.save_maps_scales := by
  show (resList ops blur ctx original modified).filterMap (fun r => r.2.2) = _
  unfold resList
  rw [List.filterMap_map, enum_eq_enumFrom_zero]
  have h := filterMap_enumFrom_lt
    (fun (n : ℕ) (a : ℝ × DssimChan L × DssimChan L) =>
      SsimMap.mk (scalePlane ops blur a.2.2 a.2.1)
        (scaleScore n (scalePlane ops blur a.2.2 a.2.1)))
    ctx.save_maps_scales
    (ctx.scale_weights.zip (modified.zip original)) 0
  rw [Nat.sub_zero] at h
  exact h

theorem make_scales_length {I S : Type} (conv : I → S) (down : I → Option I) :
    ∀ (n : ℕ) (i : I), downChain down n i →
      (make_scales_recursive conv down n i).length = n + 1 := by
  intro n
  induction n with
  | zero => intro i _; rfl
  | succ k ih =>
    intro i h
    unfold downChain at h
    unfold make_scales_recursive
    cases hd : down i with
    | none => rw [hd] at h; exact h.elim
    | some d =>
      rw [hd] at h
      simp [ih d h]

theorem zip_take_eq_take_zip {A B : Type} :
    ∀ (n : ℕ) (l : List A) (m : List B),
      (l.take n).zip (m.take n) = (l.zip m).take n := by
  intro n
  induction n with
  | zero => intro l m; simp
  | succ k ih =>
    intro l m
    cases l with
    | nil => simp
    | cons x xs =>
      cases m with
      | nil => simp
      | cons y ys => simp [ih xs ys]

theorem zip_take_self {A B : Type} :
    ∀ (l : List A) (m : List B), l.zip (m.take l.length) = l.zip m := by
  intro l
  induction l with
  | nil => intro m; simp
  | cons x xs ih =>
    intro m
    cases m with
    | nil => simp
    | cons y ys => simp [ih ys]

theorem resList_take {L : Type} (ops : SsimOps L) (blur : List L → List L)
    (ctx : Dssim) (original modified : List (DssimChan L)) :
    resList ops blur ctx (original.take ctx.scale_weights.length)
        (modified.take ctx.scale_weights.length) =
      resList ops blur ctx original modified := by
  unfold resList
  rw [zip_take_eq_take_zip, zip_take_self]

/-- C10: with `W` configured weights and an image that can be downsampled
`W` times, `create_image` builds `W + 1` pyramid levels; but `compare`
zips the scales against the `W` weights, so only the finest `W` levels of
each image influence the result — dropping every level beyond index
`W - 1` leaves both the score and the retained maps unchanged. -/
theorem pyramid_levels_and_weight_zip_consumption {I S L : Type} (conv : I → S)
    (down : I → Option I) (ctx : Dssim) (src_img : I)
    (ops : SsimOps L) (blur : List L → List L)
    (original modified : List (DssimChan L))
    (hchain : downChain down ctx.scale_weights.length src_img) :
    (∃ scales, ctx.create_image conv down src_img = some scales ∧
        scales.length = ctx.scale_weights.length + 1) ∧
    ctx.compare ops blur original modified =
      ctx.compare ops blur (original.take ctx.scale_weights.length)
        (modified.take ctx.scale_weights.length) := by
  constructor
  · refine ⟨_, rfl, ?_⟩
    rw [List.length_reverse]
    exact make_scales_length conv down ctx.scale_weights.length src_img hchain
  · unfold Dssim.compare
    rw [resList_take]

/-- C10 witness: a context with two weights and an always-downsamplable
image yields a three-level pyramid. -/
theorem pyramid_levels_and_weight_zip_consumption_witness :
    ∃ scales, (Dssim.mk [1, 1] 0).create_image (fun i : ℕ => i)
        (fun i : ℕ => some (i + 1)) 0 = some scales ∧
      scales.length = (Dssim.mk [1, 1] 0).scale_weights.length + 1 :=
  (pyramid_levels_and_weight_zip_consumption (fun i : ℕ => i)
    (fun i : ℕ => some (i + 1)) (Dssim.mk [1, 1] 0) 0 qOps (fun l => l) [] []
    (by simp [downChain])).1

theorem zipWith_self {A B : Type} (f : A → A → B) :
    ∀ l : List A, List.zipWith f l l = l.map (fun a => f a a) := by
  intro l
  induction l with
  | nil => rfl
  | cons x xs ih => simp [ih]

theorem zip_self {A : Type} : ∀ l : List A, l.zip l = l.map (fun a => (a, a)) := by
  intro l
  induction l with
  | nil => rfl
  | cons x xs ih => simp [ih]

theorem zip_pattern {A B : Type} :
    ∀ (l : List A) (m : List B),
      l.zip ((m.zip m).zip (l.zip l)) =
        (l.zip m).map (fun p => (p.1, ((p.2, p.2), (p.1, p.1)))) := by
  intro l
  induction l with
  | nil => intro m; simp
  | cons x xs ih =>
    intro m
    cases m with
    | nil => simp
    | cons y ys => simp [ih ys]

theorem enumFrom_mem_snd {A : Type} :
    ∀ (l : List A) (i : ℕ) (p : ℕ × A), p ∈ List.enumFrom i l → p.2 ∈ l := by
  intro l
  induction l with
  | nil => intro i p h; simp at h
  | cons x xs ih =>
    intro i p h
    simp only [List.enumFrom, List.mem_cons] at h
    rcases h with h | h
    · simp [h]
    · exact List.mem_cons_of_mem x (ih (i + 1) p h)

theorem ssimPixel_self {L : Type} (ops : SsimOps L) (s m : L)
    (h1 : 0 ≤ ops.toF (ops.mul m m))
    (h2 : 0 ≤ ops.toF (ops.sub s (ops.mul m m))) :
    ssimPixel ops s m m s s = 1 := by
  show (2 * ops.toF (ops.mul m m) + ssim_c1) *
      (2 * ops.toF (ops.sub s (ops.mul m m)) + ssim_c2) /
    ((ops.toF (ops.mul m m) + ops.toF (ops.mul m m) + ssim_c1) *
      (ops.toF (ops.sub s (ops.mul m m)) + ops.toF (ops.sub s (ops.mul m m)) +
        ssim_c2)) = 1
  set x := ops.toF (ops.mul m m) with hx
  set y := ops.toF (ops.sub s (ops.mul m m)) with hy
  have hc1 : (0 : ℚ) < ssim_c1 := by norm_num [ssim_c1]
  have hc2 : (0 : ℚ) < ssim_c2 := by norm_num [ssim_c2]
  have hA : (0 : ℚ) < 2 * x + ssim_c1 := by linarith
  have hB : (0 : ℚ) < 2 * y + ssim_c2 := by linarith
  rw [show x + x + ssim_c1 = 2 * x + ssim_c1 from by ring,
    show y + y + ssim_c2 = 2 * y + ssim_c2 from by ring]
  exact div_self (ne_of_gt (mul_pos hA hB))

theorem sum_of_ones : ∀ l : List ℚ, (∀ x ∈ l, x = 1) → l.sum = (l.length : ℚ) := by
  intro l
  induction l with
  | nil => intro _; simp
  | cons x xs ih =>
    intro h
    have hx := h x (List.mem_cons_self x xs)
    have hxs := ih (fun y hy => h y (List.mem_cons_of_mem x hy))
    simp only [List.sum_cons, List.length_cons, hx, hxs]
    push_cast
    ring

theorem scaleScore_of_forall_one (n : ℕ) (plane : List ℚ)
    (h : ∀ x ∈ plane, x = 1) : scaleScore n plane = 1 := by
  by_cases hlen : plane.length = 0
  · rw [List.length_eq_zero] at hlen
    subst hlen
    simp [scaleScore]
  · have hmean : ((plane.sum : ℚ) : ℝ) / (plane.length : ℝ) = 1 := by
      rw [sum_of_ones plane h]
      push_cast
      exact div_self (by exact_mod_cast hlen)
    have havg : scaleAvg n plane = 1 := by
      rw [scaleAvg_eq, hmean, max_eq_left zero_le_one, Real.one_rpow]
    unfold scaleScore
    rw [foldl_add_map (fun i : ℚ => |scaleAvg n plane - (i : ℝ)|), zero_add]
    have hmap : plane.map (fun i : ℚ => |scaleAvg n plane - (i : ℝ)|) =
        plane.map (fun _ => (0 : ℝ)) := by
      refine List.map_congr_left ?_
      intro x hx
      rw [h x hx, havg]
      simp
    rw [hmap]
    simp

theorem scalePlane_self_one {L : Type} (ops : SsimOps L) (blur : List L → List L)
    (c : DssimChan L) (hc : ChanFromBlur ops blur c)
    (hpos : ∀ p ∈ c.img_sq_blur.zip c.mu,
      0 ≤ ops.toF (ops.mul p.2 p.2) ∧
        0 ≤ ops.toF (ops.sub p.1 (ops.mul p.2 p.2))) :
    ∀ x ∈ scalePlane ops blur c c, x = 1 := by
  intro x hx
  unfold scalePlane compare_scale img1_img2_blurFn at hx
  rw [zipWith_self, ← hc.2, zip_pattern, List.map_map] at hx
  obtain ⟨p, hp, hpx⟩ := List.mem_map.mp hx
  rw [← hpx]
  show ssimPixel ops p.1 p.2 p.2 p.1 p.1 = 1
  exact ssimPixel_self ops p.1 p.2 (hpos p hp).1 (hpos p hp).2

/-- C8: comparing a preprocessed image against itself yields a
dissimilarity of exactly 0 in exact arithmetic — hence non-negative,
finite and within `1e-13` of 0.  Hypotheses: each channel's statistics
come from the shared blur (`DssimChan::preprocess`), the blur is an
averaging operator (pointwise `blur(x²) ≥ blur(x)²`, reduced through the
channel value type), and the consumed weights do not sum to 0. -/
theorem compare_self_is_zero {L : Type} (ops : SsimOps L) (blur : List L → List L)
    (ctx : Dssim) (img : List (DssimChan L))
    (hchan : ∀ c ∈ img, ChanFromBlur ops blur c)
    (hpos : ∀ c ∈ img, ∀ p ∈ c.img_sq_blur.zip c.mu,
      0 ≤ ops.toF (ops.mul p.2 p.2) ∧
        0 ≤ ops.toF (ops.sub p.1 (ops.mul p.2 p.2)))
    (hw : (ctx.scale_weights.take img.length).sum ≠ 0) :
    (ctx.compare ops blur img img).1 = 0 ∧
    0 ≤ (ctx.compare ops blur img img).1 ∧
    |(ctx.compare ops blur img img).1| ≤ 1 / 10 ^ 13 := by
  have hres1 : ∀ r ∈ resList ops blur ctx img img, r.1 = 1 := by
    intro r hr
    unfold resList at hr
    obtain ⟨p, hp, hrp⟩ := List.mem_map.mp hr
    rw [enum_eq_enumFrom_zero] at hp
    have hmem : p.2 ∈ ctx.scale_weights.zip (img.zip img) :=
      enumFrom_mem_snd _ 0 p hp
    have hzip : p.2.2 ∈ img.zip img := (List.of_mem_zip hmem).2
    rw [zip_self] at hzip
    obtain ⟨c, hc, hcc⟩ := List.mem_map.mp hzip
    rw [← hrp]
    show scaleScore p.1 (scalePlane ops blur p.2.2.2 p.2.2.1) = 1
    have h2 : p.2.2.2 = c := by rw [← hcc]
    have h1 : p.2.2.1 = c := by rw [← hcc]
    rw [h1, h2]
    exact scaleScore_of_forall_one p.1 _
      (scalePlane_self_one ops blur c (hchan c hc) (hpos c hc))
  have hfst : (ctx.compare ops blur img img).1 =
      to_dssim
        (((resList ops blur ctx img img).map (fun r => r.1 * r.2.1)).sum /
          ((resList ops blur ctx img img).map (fun r => r.2.1)).sum) := by
    show to_dssim _ = to_dssim _
    rw [foldl_add_map (fun r : ℝ × ℝ × Option SsimMap => r.1 * r.2.1),
      foldl_add_map (fun r : ℝ × ℝ × Option SsimMap => r.2.1), zero_add, zero_add]
  have hssim : (resList ops blur ctx img img).map (fun r => r.1 * r.2.1) =
      (resList ops blur ctx img img).map (fun r => r.2.1) := by
    refine List.map_congr_left ?_
    intro r hr
    rw [hres1 r hr, one_mul]
  have hwsum : (resList ops blur ctx img img).map (fun r => r.2.1) =
      ctx.scale_weights.take img.length := by
    rw [resList_weights, min_self]
  have h1 : (ctx.compare ops blur img img).1 = to_dssim 1 := by
    rw [hfst, hssim, hwsum, div_self hw]
  have h0 : to_dssim 1 = 0 := by
    rw [to_dssim, max_eq_left (by rw [f64_EPSILON]; norm_num)]
    norm_num
  rw [h1, h0]
  norm_num

/-- C8 witness: the identity comparison at a concrete one-scale,
one-pixel grayscale image with the identity blur. -/
theorem compare_self_is_zero_witness :
    ((Dssim.mk [1] 0).compare qOps (fun l => l)
        [DssimChan.mk 1 1 [0] [0] [0] false]
        [DssimChan.mk 1 1 [0] [0] [0] false]).1 = 0 :=
  (compare_self_is_zero qOps (fun l => l) (Dssim.mk [1] 0)
    [DssimChan.mk 1 1 [0] [0] [0] false]
    (by
      intro c hc
      have hce : c = DssimChan.mk 1 1 [0] [0] [0] false := by simpa using hc
      subst hce
      constructor <;> simp [ChanFromBlur, qOps])
    (by
      intro c hc p hp
      have hce : c = DssimChan.mk 1 1 [0] [0] [0] false := by simpa using hc
      subst hce
      have hpe : p = ((0 : ℚ), (0 : ℚ)) := by simpa using hp
      subst hpe
      constructor <;> simp [qOps])
    (by simp)).1

/-- C9 witness: the generic entry point applied at a concrete context and
image; the produced pyramid is `some [0]`, which has one level. -/
theorem create_image_generic_never_rejects_witness :
    1 ≤ ([0] : List ℕ).length :=
  (create_image_generic_never_rejects (Dssim.mk [] 0) (fun i : ℕ => i)
    (fun _ => none) 0).2 [0] rfl
